import Mathlib

/-!
Shallow embedding of the normalization and reconciliation core of
`albums.py` (functions `normalise`, `normalise_index`, `comp`, `compare`),
plus the spec-described reference reconciler `classify`.

Strings are modelled as lists of Unicode codepoints (`List Nat`); Python
dictionaries as insertion-ordered association lists with update-in-place /
append-at-end assignment (`upsert`), matching CPython dict semantics.
-/

namespace Albums

/-- A string, modelled as its list of codepoints. -/
abbrev Str := List Nat

/-- `string.punctuation` membership: the 32 ASCII punctuation codepoints,
expressed by their contiguous code ranges (33–47, 58–64, 91–96, 123–126). -/
def isPunct (c : Nat) : Bool :=
  (33 ≤ c && c ≤ 47) || (58 ≤ c && c ≤ 64) || (91 ≤ c && c ≤ 96) || (123 ≤ c && c ≤ 126)

/-- ASCII whitespace as stripped by Python `str.strip()` (space, TAB..CR,
FS..US). -/
def isSpace (c : Nat) : Bool :=
  c == 32 || (9 ≤ c && c ≤ 13) || (28 ≤ c && c ≤ 31)

/-- ASCII case folding as applied by `str.lower()`: map A–Z to a–z, leave
everything else unchanged. -/
def toLower (c : Nat) : Nat :=
  if 65 ≤ c ∧ c ≤ 90 then c + 32 else c

/-- Remove trailing whitespace (the tail half of Python `str.strip()`). -/
def rstrip (l : Str) : Str :=
  ((l.reverse).dropWhile isSpace).reverse

/-- Remove leading and trailing whitespace: Python `str.strip()`. -/
def stripStr (l : Str) : Str :=
  rstrip (l.dropWhile isSpace)

/-- `normalise(txt)` from albums.py: delete every `string.punctuation`
character (`txt.translate(no_punctuation)`), then `.strip()`, then
`.lower()`. -/
def normalise (l : Str) : Str :=
  (stripStr (l.filter (fun c => !isPunct c))).map toLower

/-- A hierarchical catalog index: artist → album → track records, as an
insertion-ordered association list (a Python dict of dicts). -/
abbrev Index (τ : Type) := List (Str × List (Str × List τ))

/-- Inner level of a normalised index: normalized album → retained tag
value (`[]` is modelled as `none`, a last tag as `some`). -/
abbrev NormInner (τ : Type) := List (Str × Option τ)

/-- A normalised index: normalized artist → `NormInner`. -/
abbrev NormIndex (τ : Type) := List (Str × NormInner τ)

/-- Python dict assignment `d[k] = v` on an association list: overwrite in
place when the key exists, append at the end otherwise. -/
def upsert (k : Str) (v : β) : List (Str × β) → List (Str × β)
  | [] => [(k, v)]
  | (k₀, v₀) :: rest =>
      if k₀ = k then (k, v) :: rest else (k₀, v₀) :: upsert k v rest

/-- Python dict lookup `d[k]` / membership `k in d` on an association
list. -/
def lookup (k : Str) : List (Str × β) → Option β
  | [] => none
  | (k₀, v₀) :: rest => if k₀ = k then some v₀ else lookup k rest

/-- The dict-building loop pattern of `normalise_index`: insert each entry
of the list, keyed and valued by the given functions, in iteration order. -/
def insertAll (key : α → Str) (val : α → β)
    (acc : List (Str × β)) : List α → List (Str × β)
  | [] => acc
  | x :: rest => insertAll key val (upsert (key x) (val x) acc) rest

/-- The inner loop of `normalise_index` over one artist's albums:
`norm[norm_artist][norm_album] = []` followed by
`for tag in ...: norm[norm_artist][norm_album] = tag`, so the retained
value is the last tag (or `[]`, modelled `none`). -/
def normInner (albums : List (Str × List τ)) : NormInner τ :=
  insertAll (fun e => normalise e.1) (fun e => e.2.getLast?) [] albums

/-- `normalise_index(index)` from albums.py: for each artist in iteration
order, `norm[norm_artist] = {}` (a fresh inner dict) and then fill it from
that artist's albums. -/
def normalise_index (index : Index τ) : NormIndex τ :=
  insertAll (fun e => normalise e.1) (fun e => normInner e.2) [] index

/-- The membership probe of `comp`:
`if norm_artist in norm_b: if norm_album in norm_b[norm_artist]`. -/
def hasMatch (na nal : Str) (nb : NormIndex τ) : Bool :=
  match lookup na nb with
  | some inner => (lookup nal inner).isSome
  | none => false

/-- Inner loop of `comp` over one artist of `a`: classify each album into
`both` or `a_only`, carrying the raw artist/album strings of `a`. -/
def compAlbums (nb : NormIndex τ) (artist : Str) :
    List (Str × List τ) → List (Str × Str) × List (Str × Str)
  | [] => ([], [])
  | (album, _) :: rest =>
      let r := compAlbums nb artist rest
      if hasMatch (normalise artist) (normalise album) nb then
        ((artist, album) :: r.1, r.2)
      else
        (r.1, (artist, album) :: r.2)

/-- Outer loop of `comp` over the artists of `a`. -/
def compGo (nb : NormIndex τ) : Index τ → List (Str × Str) × List (Str × Str)
  | [] => ([], [])
  | (artist, albums) :: rest =>
      let h := compAlbums nb artist albums
      let r := compGo nb rest
      (h.1 ++ r.1, h.2 ++ r.2)

/-- `comp(a, b)` from albums.py: build `normalise_index(b)` once, then for
every `(artist, album)` of `a` (in insertion order) probe it and emit the
raw pair into `both` or `a_only`. -/
def comp (a b : Index τ) : List (Str × Str) × List (Str × Str) :=
  compGo (normalise_index b) a

/-- `compare(a, b)` from albums.py:
`both, a_only = comp(a, b)` then `both, b_only = comp(b, a)` — note the
second call rebinds `both`, so the returned common list is the one of the
swapped pass. -/
def compare (a b : Index τ) :
    List (Str × Str) × List (Str × Str) × List (Str × Str) :=
  let r₁ := comp a b
  let r₂ := comp b a
  (r₂.1, r₁.2, r₂.2)

/-- All raw `(artist, album)` pairs of a catalog, in iteration order. -/
def rawPairs : Index τ → List (Str × Str)
  | [] => []
  | (artist, albums) :: rest =>
      albums.map (fun al => (artist, al.1)) ++ rawPairs rest

/-- The normalized image of a catalog's raw pairs. -/
def normPairs (a : Index τ) : List (Str × Str) :=
  (rawPairs a).map (fun p => (normalise p.1, normalise p.2))

/-- Codepoints of a Lean string literal, for readable concrete catalogs. -/
def strCodes (s : String) : Str := s.toList.map Char.toNat

/-- A catalog is collision-free when normalization is injective on its
artist keys and, within each artist, on its album keys. -/
def CF (a : Index τ) : Prop :=
  (a.map (fun e => normalise e.1)).Nodup ∧
  ∀ e ∈ a, (e.2.map (fun al => normalise al.1)).Nodup

/-- The artist/album key structure of a catalog, with track records
erased. -/
def keyShape (a : Index τ) : List (Str × List Str) :=
  a.map (fun e => (e.1, e.2.map (fun al => al.1)))

/-- The spec's locale-independent ASCII punctuation set, listed
explicitly. -/
def punctChars : List Nat :=
  [33, 34, 35, 36, 37, 38, 39, 40, 41, 42, 43, 44, 45, 46, 47,
   58, 59, 60, 61, 62, 63, 64,
   91, 92, 93, 94, 95, 96,
   123, 124, 125, 126]

/-- The normalizer as the spec words it: remove every character of the
ASCII punctuation set, strip leading and trailing whitespace, fold case to
lowercase. -/
def normaliseSpec (l : Str) : Str :=
  (stripStr (l.filter (fun c => !punctChars.contains c))).map toLower

/-- Modelled from the spec: the reference reconciler's set-valued index
insertion — map a normalized key to the set of raw spellings seen for it,
not re-adding a duplicate of the identical raw string. The reconciler
`classify` is absent from src/, so this build phase follows spec §4.3. -/
def addRaw (k v : Str) : List (Str × List Str) → List (Str × List Str)
  | [] => [(k, [v])]
  | (k₀, vs) :: rest =>
      if k₀ = k then (k₀, if vs.contains v then vs else vs ++ [v]) :: rest
      else (k₀, vs) :: addRaw k v rest

/-- Modelled from the spec: accumulate `ref_artist_index` over the
artists of the reference, in iteration order. -/
def refArtistGo (acc : List (Str × List Str)) : Index τ → List (Str × List Str)
  | [] => acc
  | (artist, _) :: rest => refArtistGo (addRaw (normalise artist) artist acc) rest

/-- Modelled from the spec: `ref_artist_index` — normalized-artist → set
of raw artist strings of the reference. -/
def ref_artist_index (reference : Index τ) : List (Str × List Str) :=
  refArtistGo [] reference

/-- Modelled from the spec: accumulate album spellings of one artist into
`ref_album_index`. -/
def refAlbumAdd (acc : List (Str × List Str)) : List (Str × List τ) → List (Str × List Str)
  | [] => acc
  | (album, _) :: rest => refAlbumAdd (addRaw (normalise album) album acc) rest

/-- Modelled from the spec: accumulate `ref_album_index` across all
artists of the reference. -/
def refAlbumGo (acc : List (Str × List Str)) : Index τ → List (Str × List Str)
  | [] => acc
  | (_, albums) :: rest => refAlbumGo (refAlbumAdd acc albums) rest

/-- Modelled from the spec: `ref_album_index` — normalized-album → set of
raw album strings, accumulated across all artists of the reference. -/
def ref_album_index (reference : Index τ) : List (Str × List Str) :=
  refAlbumGo [] reference

/-- Modelled from the spec: cross-validation probe — is raw album `rb`
actually one of raw artist `ra`'s albums in the reference? -/
def refHasAlbum (ra rb : Str) (reference : Index τ) : Bool :=
  match lookup ra reference with
  | some albums => (lookup rb albums).isSome
  | none => false

/-- Modelled from the spec: every combination `(ra, rb)` of found artist
and found album spellings that passes cross-validation. -/
def crossCandidates (reference : Index τ) : List Str → List Str → List (Str × Str)
  | [], _ => []
  | ra :: ras, rbs =>
      ((rbs.filter (fun rb => refHasAlbum ra rb reference)).map (fun rb => (ra, rb)))
        ++ crossCandidates reference ras rbs

/-- Modelled from the spec: classification of one artist's albums of the
test catalog — decision table on the two independent lookups, then
cross-validation with `hit = 0 / 1 / >1` resolving to miss / matched /
album-only-hit. Result components: (matched, miss, artist-only, album-only). -/
def classifyAlbums (rai rbi : List (Str × List Str)) (reference : Index τ) (artist : Str) :
    List (Str × List τ) →
      List (Str × Str) × List (Str × Str) × List (Str × Str) × List (Str × Str)
  | [] => ([], [], [], [])
  | (album, _) :: rest =>
      let r := classifyAlbums rai rbi reference artist rest
      match lookup (normalise artist) rai, lookup (normalise album) rbi with
      | none, none => (r.1, (artist, album) :: r.2.1, r.2.2.1, r.2.2.2)
      | none, some _ => (r.1, r.2.1, r.2.2.1, (artist, album) :: r.2.2.2)
      | some _, none => (r.1, r.2.1, (artist, album) :: r.2.2.1, r.2.2.2)
      | some ras, some rbs =>
          match crossCandidates reference ras rbs with
          | [] => (r.1, (artist, album) :: r.2.1, r.2.2.1, r.2.2.2)
          | [c] => (c :: r.1, r.2.1, r.2.2.1, r.2.2.2)
          | _ => (r.1, r.2.1, r.2.2.1, (artist, album) :: r.2.2.2)

/-- Modelled from the spec: iterate classification over the test
catalog's artists. -/
def classifyGo (rai rbi : List (Str × List Str)) (reference : Index τ) :
    Index τ →
      List (Str × Str) × List (Str × Str) × List (Str × Str) × List (Str × Str)
  | [] => ([], [], [], [])
  | (artist, albums) :: rest =>
      let h := classifyAlbums rai rbi reference artist albums
      let r := classifyGo rai rbi reference rest
      (h.1 ++ r.1, h.2.1 ++ r.2.1, h.2.2.1 ++ r.2.2.1, h.2.2.2 ++ r.2.2.2)

/-- Modelled from the spec: the reference reconciler
`classify(test, reference) -> (matched, miss, artist_only_hit,
album_only_hit)` of spec §4.3, absent from src/. -/
def classify (test reference : Index τ) :
    List (Str × Str) × List (Str × Str) × List (Str × Str) × List (Str × Str) :=
  classifyGo (ref_artist_index reference) (ref_album_index reference) reference test

/-- The §8 exactness example's reference catalog. -/
def exRef : Index Nat :=
  [(strCodes "Metallica", [(strCodes "Black Album", [])]),
   (strCodes "Iron Maiden", [(strCodes "Black Album", [])])]

/-- The §8 exactness example's test catalog. -/
def exTest : Index Nat :=
  [(strCodes "metallica", [(strCodes "black album", [])])]

theorem lookup_upsert_self (k : Str) (v : β) (m : List (Str × β)) :
    lookup k (upsert k v m) = some v := by
  induction m with
  | nil => simp [upsert, lookup]
  | cons e rest ih =>
      obtain ⟨k₀, v₀⟩ := e
      by_cases h : k₀ = k
      · simp [upsert, h, lookup]
      · simp [upsert, h, lookup, ih]

theorem lookup_upsert_ne (k₀ k : Str) (hk : k₀ ≠ k) (v : β) (m : List (Str × β)) :
    lookup k (upsert k₀ v m) = lookup k m := by
  induction m with
  | nil => simp [upsert, lookup, hk]
  | cons e rest ih =>
      obtain ⟨k₁, v₁⟩ := e
      by_cases h : k₁ = k₀
      · subst h; simp [upsert, lookup, hk, ih]
      · by_cases h₂ : k₁ = k <;> simp [upsert, lookup, h, h₂, Ne.symm hk, ih]

theorem lookup_insertAll (key : α → Str) (val : α → β) (k : Str) (l : List α)
    (acc : List (Str × β)) :
    lookup k (insertAll key val acc l) =
      match (l.filter (fun x => key x == k)).getLast? with
      | some x => some (val x)
      | none => lookup k acc := by
  induction l generalizing acc with
  | nil => simp [insertAll]
  | cons x rest ih =>
      by_cases hq : key x = k
      · rw [insertAll, ih]
        simp only [List.filter_cons, hq, beq_self_eq_true, if_pos, ite_true,
          List.getLast?_cons]
        cases hrest : (rest.filter (fun y => key y == k)).getLast? with
        | some y => simp
        | none => simp [hq, lookup_upsert_self]
      · rw [insertAll, ih]
        have hq' : (key x == k) = false := by simp [hq]
        simp only [List.filter_cons, hq', Bool.false_eq_true, if_neg, ite_false]
        cases hrest : (rest.filter (fun y => key y == k)).getLast? with
        | some y => simp
        | none => simp [lookup_upsert_ne (key x) k hq]

theorem lookup_normalise_index (b : Index τ) (na : Str) :
    lookup na (normalise_index b) =
      ((b.filter (fun e => normalise e.1 == na)).getLast?).map
        (fun e => normInner e.2) := by
  rw [normalise_index, lookup_insertAll]
  cases (b.filter (fun e => normalise e.1 == na)).getLast? <;> simp [lookup]

theorem lookup_normInner (albums : List (Str × List τ)) (nal : Str) :
    lookup nal (normInner albums) =
      ((albums.filter (fun e => normalise e.1 == nal)).getLast?).map
        (fun e => e.2.getLast?) := by
  rw [normInner, lookup_insertAll]
  cases (albums.filter (fun e => normalise e.1 == nal)).getLast? <;> simp [lookup]

theorem lookup_normInner_isSome (albums : List (Str × List τ)) (nal : Str) :
    (lookup nal (normInner albums)).isSome = true ↔
      ∃ e ∈ albums, normalise e.1 = nal := by
  rw [lookup_normInner]
  cases hlast : (albums.filter (fun e => normalise e.1 == nal)).getLast? with
  | some e =>
      have he := List.mem_of_getLast?_eq_some hlast
      rw [List.mem_filter] at he
      simp only [Option.map_some', Option.isSome_some, true_iff]
      exact ⟨e, he.1, by simpa using he.2⟩
  | none =>
      rw [List.getLast?_eq_none_iff] at hlast
      simp only [Option.map_none', Option.isSome_none, Bool.false_eq_true, false_iff]
      rintro ⟨e, hmem, hnal⟩
      have : e ∈ albums.filter (fun e => normalise e.1 == nal) := by
        rw [List.mem_filter]; exact ⟨hmem, by simp [hnal]⟩
      rw [hlast] at this
      exact absurd this (List.not_mem_nil e)

theorem compAlbums_eq (nb : NormIndex τ) (artist : Str) (albums : List (Str × List τ)) :
    compAlbums nb artist albums =
      ((albums.map (fun al => (artist, al.1))).filter
          (fun p => hasMatch (normalise p.1) (normalise p.2) nb),
       (albums.map (fun al => (artist, al.1))).filter
          (fun p => !hasMatch (normalise p.1) (normalise p.2) nb)) := by
  induction albums with
  | nil => simp [compAlbums]
  | cons al rest ih =>
      obtain ⟨album, tr⟩ := al
      by_cases h : hasMatch (normalise artist) (normalise album) nb
      · simp [compAlbums, ih, h, List.filter_cons]
      · simp [compAlbums, ih, h, List.filter_cons]

theorem compGo_eq (nb : NormIndex τ) (a : Index τ) :
    compGo nb a =
      ((rawPairs a).filter (fun p => hasMatch (normalise p.1) (normalise p.2) nb),
       (rawPairs a).filter (fun p => !hasMatch (normalise p.1) (normalise p.2) nb)) := by
  induction a with
  | nil => simp [compGo, rawPairs]
  | cons e rest ih =>
      obtain ⟨artist, albums⟩ := e
      simp [compGo, ih, compAlbums_eq, rawPairs, List.filter_append]

theorem comp_eq (a b : Index τ) :
    comp a b =
      ((rawPairs a).filter
          (fun p => hasMatch (normalise p.1) (normalise p.2) (normalise_index b)),
       (rawPairs a).filter
          (fun p => !hasMatch (normalise p.1) (normalise p.2) (normalise_index b))) :=
  compGo_eq (normalise_index b) a

theorem isPunct_iff (c : Nat) :
    isPunct c = true ↔
      ((33 ≤ c ∧ c ≤ 47) ∨ (58 ≤ c ∧ c ≤ 64) ∨ (91 ≤ c ∧ c ≤ 96) ∨
        (123 ≤ c ∧ c ≤ 126)) := by
  simp only [isPunct, Bool.or_eq_true, Bool.and_eq_true, decide_eq_true_eq]
  tauto

theorem isSpace_iff (c : Nat) :
    isSpace c = true ↔ (c = 32 ∨ (9 ≤ c ∧ c ≤ 13) ∨ (28 ≤ c ∧ c ≤ 31)) := by
  simp only [isSpace, Bool.or_eq_true, Bool.and_eq_true, decide_eq_true_eq,
    beq_iff_eq]
  tauto

theorem toLower_idem (c : Nat) : toLower (toLower c) = toLower c := by
  unfold toLower
  by_cases h : 65 ≤ c ∧ c ≤ 90
  · rw [if_pos h, if_neg (by omega)]
  · rw [if_neg h, if_neg h]

theorem isSpace_toLower (c : Nat) : isSpace (toLower c) = isSpace c := by
  by_cases h : 65 ≤ c ∧ c ≤ 90
  · have h1 : isSpace (toLower c) = false := by
      rw [toLower, if_pos h, Bool.eq_false_iff, Ne, isSpace_iff]; omega
    have h2 : isSpace c = false := by
      rw [Bool.eq_false_iff, Ne, isSpace_iff]; omega
    rw [h1, h2]
  · rw [toLower, if_neg h]

theorem isPunct_toLower (c : Nat) (h : isPunct c = false) :
    isPunct (toLower c) = false := by
  by_cases hc : 65 ≤ c ∧ c ≤ 90
  · rw [toLower, if_pos hc, Bool.eq_false_iff, Ne, isPunct_iff]; omega
  · rw [toLower, if_neg hc]; exact h

theorem isPunct_eq_contains (c : Nat) : isPunct c = punctChars.contains c := by
  rw [Bool.eq_iff_iff, isPunct_iff]
  simp only [punctChars, List.contains, List.elem_eq_mem, List.mem_cons,
    List.not_mem_nil, or_false, decide_eq_true_eq]
  omega

theorem head?_dropWhile_false (p : Nat → Bool) (l : List Nat) (c : Nat)
    (h : (l.dropWhile p).head? = some c) : p c = false := by
  have hh := List.head?_dropWhile_not p l
  rw [h] at hh
  exact hh

theorem dropWhile_eq_self_of_head? (p : Nat → Bool) (l : List Nat)
    (h : ∀ c, l.head? = some c → p c = false) : l.dropWhile p = l := by
  cases l with
  | nil => rfl
  | cons a t =>
      have := h a (by rfl)
      simp [List.dropWhile_cons, this]

theorem getLast?_rstrip_false (l : List Nat) (c : Nat)
    (h : (rstrip l).getLast? = some c) : isSpace c = false := by
  rw [rstrip, List.getLast?_reverse] at h
  exact head?_dropWhile_false isSpace l.reverse c h

theorem head?_rstrip (l : List Nat) (c : Nat) (h : (rstrip l).head? = some c) :
    l.head? = some c := by
  rw [rstrip, List.head?_reverse] at h
  obtain ⟨t, ht⟩ := List.dropWhile_suffix (l := l.reverse) (p := isSpace)
  have hg : l.reverse.getLast? = some c := by
    rw [← ht, List.getLast?_append, h]; rfl
  rw [List.getLast?_reverse] at hg
  exact hg

theorem head?_stripStr_false (l : List Nat) (c : Nat)
    (h : (stripStr l).head? = some c) : isSpace c = false := by
  rw [stripStr] at h
  exact head?_dropWhile_false isSpace l c (head?_rstrip _ c h)

theorem getLast?_stripStr_false (l : List Nat) (c : Nat)
    (h : (stripStr l).getLast? = some c) : isSpace c = false := by
  rw [stripStr] at h
  exact getLast?_rstrip_false _ c h

theorem stripStr_eq_self (l : List Nat)
    (h1 : ∀ c, l.head? = some c → isSpace c = false)
    (h2 : ∀ c, l.getLast? = some c → isSpace c = false) : stripStr l = l := by
  rw [stripStr, dropWhile_eq_self_of_head? isSpace l h1, rstrip,
    dropWhile_eq_self_of_head? isSpace l.reverse
      (fun c hc => h2 c (by rwa [List.head?_reverse] at hc)),
    List.reverse_reverse]

theorem mem_stripStr (l : List Nat) (c : Nat) (h : c ∈ stripStr l) : c ∈ l := by
  rw [stripStr, rstrip] at h
  rw [List.mem_reverse] at h
  have h₂ := (List.dropWhile_suffix (p := isSpace)).subset h
  rw [List.mem_reverse] at h₂
  exact (List.dropWhile_suffix (p := isSpace)).subset h₂

theorem stripStr_map_toLower (l : List Nat) :
    stripStr (l.map toLower) = (stripStr l).map toLower := by
  have hsp : (isSpace ∘ toLower) = isSpace := funext isSpace_toLower
  rw [stripStr, stripStr, rstrip, rstrip, List.dropWhile_map, hsp,
    ← List.map_reverse, List.dropWhile_map, hsp, ← List.map_reverse]

theorem mem_normalise_not_punct (x : Str) (c : Nat) (h : c ∈ normalise x) :
    isPunct c = false := by
  rw [normalise] at h
  rw [List.mem_map] at h
  obtain ⟨c₀, hc₀, rfl⟩ := h
  have hmem := mem_stripStr _ c₀ hc₀
  rw [List.mem_filter] at hmem
  exact isPunct_toLower c₀ (by simpa using hmem.2)

/-- C7: the normalizer is idempotent — for every string `x`,
`normalise (normalise x) = normalise x`. -/
theorem normalise_idempotent (x : Str) :
    normalise (normalise x) = normalise x := by
  have hyform :
      normalise x = (stripStr (x.filter (fun c => !isPunct c))).map toLower := rfl
  have hfilt : (normalise x).filter (fun c => !isPunct c) = normalise x := by
    rw [List.filter_eq_self]
    intro c hc
    have := mem_normalise_not_punct x c hc
    simp [this]
  have hstrip : stripStr (normalise x) = normalise x := by
    apply stripStr_eq_self
    · intro c hc
      rw [hyform, List.head?_map] at hc
      cases hw : (stripStr (x.filter (fun c => !isPunct c))).head? with
      | none => rw [hw] at hc; simp at hc
      | some c₀ =>
          rw [hw] at hc
          simp only [Option.map_some', Option.some.injEq] at hc
          rw [← hc, isSpace_toLower]
          exact head?_stripStr_false _ c₀ hw
    · intro c hc
      rw [hyform, List.getLast?_map] at hc
      cases hw : (stripStr (x.filter (fun c => !isPunct c))).getLast? with
      | none => rw [hw] at hc; simp at hc
      | some c₀ =>
          rw [hw] at hc
          simp only [Option.map_some', Option.some.injEq] at hc
          rw [← hc, isSpace_toLower]
          exact getLast?_stripStr_false _ c₀ hw
  have hmap : (normalise x).map toLower = normalise x := by
    rw [hyform, List.map_map]
    congr 1
    funext c
    simp only [Function.comp_apply]
    exact toLower_idem c
  calc normalise (normalise x)
      = (stripStr ((normalise x).filter (fun c => !isPunct c))).map toLower := rfl
    _ = (stripStr (normalise x)).map toLower := by rw [hfilt]
    _ = (normalise x).map toLower := by rw [hstrip]
    _ = normalise x := hmap

/-- C8: `normalise` agrees with the spec's description — delete every
character of the ASCII punctuation set, strip leading and trailing
whitespace, fold to lowercase; it is a total function mapping the empty
string to the empty string, and its output contains no punctuation
character. -/
theorem normalise_matches_spec (x : Str) :
    normalise x = normaliseSpec x ∧ normalise ([] : Str) = [] ∧
      ∀ c ∈ normalise x, punctChars.contains c = false := by
  refine ⟨?_, rfl, ?_⟩
  · have hpred : (fun c => !isPunct c) = (fun c : Nat => !punctChars.contains c) := by
      funext c
      rw [isPunct_eq_contains]
    rw [normalise, normaliseSpec, hpred]
  · intro c hc
    rw [← isPunct_eq_contains]
    exact mem_normalise_not_punct x c hc

/-- Witness for C8 at a concrete input. -/
theorem normalise_matches_spec_witness :
    punctChars.contains 97 = false :=
  (normalise_matches_spec (strCodes " A.b ")).2.2 97 (by decide)

theorem filter_length_partition (l : List α) (q : α → Bool) :
    (l.filter q).length + (l.filter (fun x => !q x)).length = l.length := by
  induction l with
  | nil => rfl
  | cons a t ih =>
      by_cases h : q a <;> simp [List.filter_cons, h] <;> omega

theorem filter_count_partition [BEq α] (l : List α) (q : α → Bool) (p : α) :
    (l.filter q).count p + (l.filter (fun x => !q x)).count p = l.count p := by
  rw [List.count_eq_countP, List.count_eq_countP, List.count_eq_countP]
  exact (List.countP_eq_countP_filter_add l _ q).symm

/-- C5: in a single directional pass, a raw pair of `a` goes to `common`
exactly when the normalized artist is a key of the normalized view of `b`
with the normalized album nested under it, and to `a_only` otherwise,
always carrying `a`'s raw strings. -/
theorem comp_emits_iff_match (a b : Index τ) :
    (comp a b).1 = (rawPairs a).filter
        (fun p => hasMatch (normalise p.1) (normalise p.2) (normalise_index b)) ∧
    (comp a b).2 = (rawPairs a).filter
        (fun p => !hasMatch (normalise p.1) (normalise p.2) (normalise_index b)) ∧
    (∀ ar al : Str,
      (ar, al) ∈ (comp a b).1 ↔
        ((ar, al) ∈ rawPairs a ∧
          hasMatch (normalise ar) (normalise al) (normalise_index b) = true)) ∧
    (∀ ar al : Str,
      (ar, al) ∈ (comp a b).2 ↔
        ((ar, al) ∈ rawPairs a ∧
          hasMatch (normalise ar) (normalise al) (normalise_index b) = false)) := by
  rw [comp_eq]
  refine ⟨rfl, rfl, ?_, ?_⟩
  · intro ar al
    rw [List.mem_filter]
  · intro ar al
    rw [List.mem_filter, Bool.not_eq_true']

/-- Witness for C5 at a concrete input: (A, X) matches (a, x) and is
emitted into `common`. -/
theorem comp_emits_iff_match_witness :
    ([65], [88]) ∈
      (comp [([65], [([88], ([] : List Nat))])] [([97], [([120], [])])]).1 :=
  ((comp_emits_iff_match [([65], [([88], ([] : List Nat))])]
      [([97], [([120], [])])]).2.2.1 [65] [88]).mpr ⟨by decide, by decide⟩

/-- C6: a single directional pass classifies every raw pair of `a` into
exactly one of `common` and `a_only` — lengths and multiplicities add up
to those of `a`'s pair list, and each pair of `a` lands in one list and
not the other. -/
theorem comp_partitions (a b : Index τ) (p : Str × Str) :
    (comp a b).1.length + (comp a b).2.length = (rawPairs a).length ∧
    (comp a b).1.count p + (comp a b).2.count p = (rawPairs a).count p ∧
    (p ∈ rawPairs a →
      (p ∈ (comp a b).1 ∧ p ∉ (comp a b).2) ∨
      (p ∉ (comp a b).1 ∧ p ∈ (comp a b).2)) := by
  rw [comp_eq]
  refine ⟨filter_length_partition _ _, filter_count_partition _ _ _, ?_⟩
  intro hp
  by_cases h : hasMatch (normalise p.1) (normalise p.2) (normalise_index b)
  · left
    constructor
    · rw [List.mem_filter]; exact ⟨hp, h⟩
    · intro hc
      rw [List.mem_filter] at hc
      simp [h] at hc
  · right
    constructor
    · intro hc
      rw [List.mem_filter] at hc
      simp [h] at hc
    · rw [List.mem_filter]
      simp [h, hp]

/-- Witness for C6 at a concrete input. -/
theorem comp_partitions_witness :
    (([65], [88]) ∈
        (comp [([65], [([88], ([] : List Nat))])] [([97], [([120], [])])]).1 ∧
      ([65], [88]) ∉
        (comp [([65], [([88], ([] : List Nat))])] [([97], [([120], [])])]).2) :=
  ((comp_partitions [([65], [([88], ([] : List Nat))])] [([97], [([120], [])])]
      ([65], [88])).2.2 (by decide)).resolve_right (by decide)

/-- C1 counterexample: with a = {"A.": {"X": []}} and b = {"a": {"x": []}},
the `common` list returned by `compare` is the swapped pass's
[("a","x")], not the first pass's [("A.","X")] — the first call's
`common` is the one discarded. -/
theorem compare_common_cex :
    (Albums.compare [([65, 46], [([88], ([] : List Nat))])]
        [([97], [([120], [])])]).1 ≠
      (comp [([65, 46], [([88], ([] : List Nat))])] [([97], [([120], [])])]).1 := by
  decide

/-- C1 amended: `compare` keeps the `common` result of the second,
swapped (b-against-a) pass, carrying b's raw spellings, and discards the
first pass's `common`; `a_only` comes from the first pass and `b_only`
from the second. -/
theorem compare_keeps_swapped_common (a b : Index τ) :
    (Albums.compare a b).1 = (comp b a).1 ∧
    (Albums.compare a b).2.1 = (comp a b).2 ∧
    (Albums.compare a b).2.2 = (comp b a).2 ∧
    ∀ p ∈ (Albums.compare a b).1, p ∈ rawPairs b := by
  refine ⟨rfl, rfl, rfl, ?_⟩
  intro p hp
  have h1 : (Albums.compare a b).1 = (rawPairs b).filter
      (fun p => hasMatch (normalise p.1) (normalise p.2) (normalise_index a)) := by
    show (comp b a).1 = _
    rw [comp_eq]
  rw [h1] at hp
  exact (List.mem_filter.mp hp).1

/-- Witness for C1 amended at a concrete input. -/
theorem compare_keeps_swapped_common_witness :
    ([97], [120]) ∈ rawPairs [([97], [([120], ([] : List Nat))])] :=
  (compare_keeps_swapped_common [([65, 46], [([88], ([] : List Nat))])]
      [([97], [([120], [])])]).2.2.2 ([97], [120]) (by decide)

/-- C2 counterexample: in b = {"X.": {"p": []}, "X": {"q": []}} the two raw
artists normalize to the same key "x", so the album "p" of the earlier
artist is absent from the normalized view (the probe for its pair fails). -/
theorem normalise_index_cex :
    (([88, 46], [112]) ∈
        rawPairs [([88, 46], [([112], ([] : List Nat))]), ([88], [([113], [])])]) ∧
    hasMatch (normalise [88, 46]) (normalise [112])
        (normalise_index
          [([88, 46], [([112], ([] : List Nat))]), ([88], [([113], [])])]) = false := by
  decide

/-- C2 amended: the normalized view maps each normalized-artist key to the
inner mapping of the LAST raw artist (in insertion order) normalizing to
it — the albums of earlier colliding raw artists are dropped wholesale;
within the retained artist, an album key is present exactly when some
album of that artist normalizes to it (values follow last-write-wins). -/
theorem normalise_index_last_artist_wins (b : Index τ)
    (albums : List (Str × List τ)) (na nal : Str) :
    lookup na (normalise_index b) =
      ((b.filter (fun e => normalise e.1 == na)).getLast?).map
        (fun e => normInner e.2) ∧
    lookup nal (normInner albums) =
      ((albums.filter (fun e => normalise e.1 == nal)).getLast?).map
        (fun e => e.2.getLast?) ∧
    ((lookup nal (normInner albums)).isSome = true ↔
      ∃ e ∈ albums, normalise e.1 = nal) :=
  ⟨lookup_normalise_index b na, lookup_normInner albums nal,
    lookup_normInner_isSome albums nal⟩

theorem rawPairs_append (l₁ l₂ : Index τ) :
    rawPairs (l₁ ++ l₂) = rawPairs l₁ ++ rawPairs l₂ := by
  induction l₁ with
  | nil => simp [rawPairs]
  | cons e rest ih =>
      obtain ⟨artist, albums⟩ := e
      simp [rawPairs, ih]

/-- C9: an empty catalog on either side sends every pair of the other side
to that side's "only" list with `common` empty, and an artist with an
empty album mapping contributes no pair: dropping it leaves `comp`
unchanged, and every output pair of `compare` is a pair of one of the two
catalogs (never of the album-less artist). -/
theorem empty_catalog_behaviour (a b pre post : Index τ) (ar : Str) :
    comp ([] : Index τ) b = ([], []) ∧
    (comp a ([] : Index τ)).1 = [] ∧
    (comp a ([] : Index τ)).2 = rawPairs a ∧
    Albums.compare a ([] : Index τ) = ([], rawPairs a, []) ∧
    Albums.compare ([] : Index τ) b = ([], [], rawPairs b) ∧
    comp (pre ++ (ar, []) :: post) b = comp (pre ++ post) b ∧
    (∀ p ∈ (Albums.compare (pre ++ (ar, []) :: post) b).2.1,
      p ∈ rawPairs (pre ++ post)) ∧
    (∀ p ∈ (Albums.compare (pre ++ (ar, []) :: post) b).1, p ∈ rawPairs b) ∧
    (∀ p ∈ (Albums.compare (pre ++ (ar, []) :: post) b).2.2, p ∈ rawPairs b) := by
  have hfalse : ∀ (na nal : Str),
      hasMatch na nal (normalise_index ([] : Index τ)) = false := fun _ _ => rfl
  have hone : ∀ (x : Index τ), comp x ([] : Index τ) = ([], rawPairs x) := by
    intro x
    rw [comp_eq, Prod.mk.injEq]
    constructor
    · rw [List.filter_eq_nil_iff]
      intro p _
      simp [hfalse]
    · rw [List.filter_eq_self]
      intro p _
      simp [hfalse]
  have hnil : ∀ (x : Index τ), comp ([] : Index τ) x = ([], []) := fun _ => rfl
  have hpairs : rawPairs (pre ++ (ar, []) :: post) = rawPairs (pre ++ post) := by
    rw [rawPairs_append, rawPairs_append]
    simp [rawPairs]
  refine ⟨hnil b, ?_, ?_, ?_, ?_, ?_, ?_, ?_, ?_⟩
  · rw [hone a]
  · rw [hone a]
  · simp only [Albums.compare, hnil, hone]
  · simp only [Albums.compare, hnil, hone]
  · rw [comp_eq, comp_eq, hpairs]
  · intro p hp
    have hh : (Albums.compare (pre ++ (ar, []) :: post) b).2.1 =
        (comp (pre ++ (ar, []) :: post) b).2 := rfl
    rw [hh, comp_eq] at hp
    have := (List.mem_filter.mp hp).1
    rwa [hpairs] at this
  · intro p hp
    have hh : (Albums.compare (pre ++ (ar, []) :: post) b).1 =
        (comp b (pre ++ (ar, []) :: post)).1 := rfl
    rw [hh, comp_eq] at hp
    exact (List.mem_filter.mp hp).1
  · intro p hp
    have hh : (Albums.compare (pre ++ (ar, []) :: post) b).2.2 =
        (comp b (pre ++ (ar, []) :: post)).2 := rfl
    rw [hh, comp_eq] at hp
    exact (List.mem_filter.mp hp).1

/-- Witness for C9 at a concrete input. -/
theorem empty_catalog_behaviour_witness :
    ([97], [120]) ∈ rawPairs [([97], [([120], ([] : List Nat))])] :=
  (empty_catalog_behaviour [([97], [([120], ([] : List Nat))])]
      [([97], [([120], [])])] [] [([97], [([120], [])])] [122]).2.2.2.2.2.2.2.1
    ([97], [120]) (by decide)

/-- C3 (spec-modelled): the reference reconciler's exactness example —
reference {"Metallica": {"Black Album"}, "Iron Maiden": {"Black Album"}}
against test {"metallica": {"black album"}} yields a single `matched`
entry carrying the reference spelling, with exactly one cross-validated
candidate (hit = 1), not an ambiguity. -/
theorem classify_exactness :
    classify exTest exRef =
      ([(strCodes "Metallica", strCodes "Black Album")], [], [], []) ∧
    lookup (normalise (strCodes "metallica")) (ref_artist_index exRef) =
      some [strCodes "Metallica"] ∧
    lookup (normalise (strCodes "black album")) (ref_album_index exRef) =
      some [strCodes "Black Album"] ∧
    (crossCandidates exRef [strCodes "Metallica"] [strCodes "Black Album"]).length
      = 1 := by
  refine ⟨by rfl, by decide, by decide, by decide⟩

theorem mem_rawPairs (x : Index τ) (p : Str × Str) :
    p ∈ rawPairs x ↔ ∃ e ∈ x, ∃ al ∈ e.2, p = (e.1, al.1) := by
  induction x with
  | nil => simp [rawPairs]
  | cons e rest ih =>
      obtain ⟨artist, albums⟩ := e
      simp only [rawPairs, List.mem_append, List.mem_map, ih, List.mem_cons]
      constructor
      · rintro (⟨al, hal, rfl⟩ | ⟨e₀, he₀, al, hal, rfl⟩)
        · exact ⟨(artist, albums), Or.inl rfl, al, hal, rfl⟩
        · exact ⟨e₀, Or.inr he₀, al, hal, rfl⟩
      · rintro ⟨e₀, (rfl | he₀), al, hal, rfl⟩
        · exact Or.inl ⟨al, hal, rfl⟩
        · exact Or.inr ⟨e₀, he₀, al, hal, rfl⟩

theorem mem_normPairs (x : Index τ) (q : Str × Str) :
    q ∈ normPairs x ↔
      ∃ e ∈ x, ∃ al ∈ e.2, q = (normalise e.1, normalise al.1) := by
  rw [normPairs, List.mem_map]
  constructor
  · rintro ⟨p, hp, rfl⟩
    rw [mem_rawPairs] at hp
    obtain ⟨e, he, al, hal, rfl⟩ := hp
    exact ⟨e, he, al, hal, rfl⟩
  · rintro ⟨e, he, al, hal, rfl⟩
    exact ⟨(e.1, al.1), (mem_rawPairs x _).mpr ⟨e, he, al, hal, rfl⟩, rfl⟩

theorem fst_mem_of_mem_normPairs (x : Index τ) (q : Str × Str)
    (h : q ∈ normPairs x) : q.1 ∈ x.map (fun e => normalise e.1) := by
  rw [mem_normPairs] at h
  obtain ⟨e, he, al, hal, rfl⟩ := h
  exact List.mem_map.mpr ⟨e, he, rfl⟩

theorem normPairs_cons (artist : Str) (albums : List (Str × List τ)) (rest : Index τ) :
    normPairs ((artist, albums) :: rest) =
      albums.map (fun al => (normalise artist, normalise al.1)) ++ normPairs rest := by
  rw [normPairs, rawPairs, List.map_append, List.map_map]
  rfl

theorem normPairs_nodup (x : Index τ) (hx : CF x) : (normPairs x).Nodup := by
  induction x with
  | nil => simp [normPairs, rawPairs]
  | cons e rest ih =>
      obtain ⟨artist, albums⟩ := e
      rw [normPairs_cons]
      have hmap := hx.1
      rw [List.map_cons, List.nodup_cons] at hmap
      apply List.Nodup.append
      · have hinner := hx.2 (artist, albums) (List.mem_cons_self _ _)
        have hmapped := hinner.map (f := fun s => (normalise artist, s))
          (fun s t hst => congrArg Prod.snd hst)
        rwa [List.map_map] at hmapped
      · exact ih ⟨hmap.2, fun e₀ he₀ => hx.2 e₀ (List.mem_cons_of_mem _ he₀)⟩
      · intro q hq hq₂
        have h1 : q.1 = normalise artist := by
          rw [List.mem_map] at hq
          obtain ⟨al, _, rfl⟩ := hq
          rfl
        have h2 := fst_mem_of_mem_normPairs rest q hq₂
        rw [h1] at h2
        exact hmap.1 h2

theorem hasMatch_iff_of_CF (b : Index τ) (hb : CF b) (na nal : Str) :
    hasMatch na nal (normalise_index b) = true ↔ (na, nal) ∈ normPairs b := by
  unfold hasMatch
  rw [lookup_normalise_index]
  cases hlast : (b.filter (fun e => normalise e.1 == na)).getLast? with
  | none =>
      simp only [Option.map_none']
      constructor
      · intro h
        simp at h
      · intro hmem
        exfalso
        rw [mem_normPairs] at hmem
        obtain ⟨e, he, al, hal, heq⟩ := hmem
        have hna : normalise e.1 = na := (congrArg Prod.fst heq).symm
        have : e ∈ b.filter (fun e => normalise e.1 == na) := by
          rw [List.mem_filter]
          exact ⟨he, by simp [hna]⟩
        rw [List.getLast?_eq_none_iff] at hlast
        rw [hlast] at this
        exact absurd this (List.not_mem_nil e)
  | some e₀ =>
      simp only [Option.map_some']
      rw [lookup_normInner_isSome]
      have he₀ := List.mem_of_getLast?_eq_some hlast
      rw [List.mem_filter] at he₀
      obtain ⟨he₀b, he₀na⟩ := he₀
      have hna : normalise e₀.1 = na := by simpa using he₀na
      constructor
      · rintro ⟨al, hal, hnal⟩
        rw [mem_normPairs]
        exact ⟨e₀, he₀b, al, hal, by rw [hna, hnal]⟩
      · intro hmem
        rw [mem_normPairs] at hmem
        obtain ⟨e, heb, al, hal, heq⟩ := hmem
        have h1 : na = normalise e.1 := congrArg Prod.fst heq
        have h2 : nal = normalise al.1 := congrArg Prod.snd heq
        have hee : e = e₀ :=
          List.inj_on_of_nodup_map hb.1 heb he₀b (by rw [← h1, hna])
        exact ⟨al, hee ▸ hal, h2.symm⟩

theorem filter_mem_length_comm (l₁ l₂ : List (Str × Str))
    (h₁ : l₁.Nodup) (h₂ : l₂.Nodup) :
    (l₁.filter (fun x => decide (x ∈ l₂))).length =
      (l₂.filter (fun x => decide (x ∈ l₁))).length := by
  have e : ∀ (m₁ m₂ : List (Str × Str)), m₁.Nodup →
      (m₁.filter (fun x => decide (x ∈ m₂))).length =
        (m₁.toFinset ∩ m₂.toFinset).card := by
    intro m₁ m₂ hm
    rw [← List.toFinset_card_of_nodup (hm.filter _)]
    congr 1
    rw [List.toFinset_filter, ← Finset.filter_mem_eq_inter]
    apply Finset.filter_congr
    intro x _
    simp [List.mem_toFinset]
  rw [e l₁ l₂ h₁, e l₂ l₁ h₂, Finset.inter_comm]

/-- C4 counterexample: with A = {"a": {"x"}, "a.": {"x"}} and
B = {"a": {"x"}}, the A→B pass finds 2 common pairs but the B→A pass only
1, so the two `common` lists have different lengths. -/
theorem comp_common_length_cex :
    (comp [([97], [([120], ([] : List Nat))]), ([97, 46], [([120], [])])]
        [([97], [([120], [])])]).1.length ≠
      (comp [([97], [([120], ([] : List Nat))])]
        [([97], [([120], [])]), ([97, 46], [([120], [])])]).1.length := by
  decide

/-- C4 amended: when normalization is collision-free on both catalogs
(injective on artist keys, and on album keys within each artist), the
`common` lists of the two directional passes have equal length. -/
theorem comp_common_length_symm (a b : Index τ) (ha : CF a) (hb : CF b) :
    (comp a b).1.length = (comp b a).1.length := by
  have key : ∀ (x y : Index τ), CF y →
      (comp x y).1.length =
        ((normPairs x).filter (fun q => decide (q ∈ normPairs y))).length := by
    intro x y hy
    have h1 : (comp x y).1 = (rawPairs x).filter
        (fun p => hasMatch (normalise p.1) (normalise p.2) (normalise_index y)) := by
      rw [comp_eq]
    rw [h1, ← List.countP_eq_length_filter, ← List.countP_eq_length_filter]
    have h2 : normPairs x =
        (rawPairs x).map (fun p => (normalise p.1, normalise p.2)) := rfl
    rw [h2, List.countP_map]
    apply List.countP_congr
    intro p _
    simp only [Function.comp_apply, decide_eq_true_eq]
    exact hasMatch_iff_of_CF y hy (normalise p.1) (normalise p.2)
  rw [key a b hb, key b a ha]
  exact filter_mem_length_comm _ _ (normPairs_nodup a ha) (normPairs_nodup b hb)

/-- Witness for C4 amended at concrete collision-free catalogs. -/
theorem comp_common_length_symm_witness :
    CF [([97], [([120], ([] : List Nat))]), ([98], [([120], [])])] ∧
    CF [([97], [([120], ([] : List Nat))])] ∧
    (comp [([97], [([120], ([] : List Nat))]), ([98], [([120], [])])]
        [([97], [([120], [])])]).1.length =
      (comp [([97], [([120], ([] : List Nat))])]
        [([97], [([120], [])]), ([98], [([120], [])])]).1.length :=
  ⟨by constructor <;> decide, by constructor <;> decide,
    comp_common_length_symm _ _ ⟨by decide, by decide⟩ ⟨by decide, by decide⟩⟩

theorem filter_keyShape_congr {τ τ' : Type} (b : Index τ) (b' : Index τ')
    (h : keyShape b = keyShape b') (na : Str) :
    ((b.filter (fun e => normalise e.1 == na)).map
        (fun e => (e.1, e.2.map (fun al => al.1)))) =
      ((b'.filter (fun e => normalise e.1 == na)).map
        (fun e => (e.1, e.2.map (fun al => al.1)))) := by
  have hb : (b.filter (fun e => normalise e.1 == na)).map
      (fun e => (e.1, e.2.map (fun al => al.1))) =
      (keyShape b).filter (fun s => normalise s.1 == na) := by
    rw [keyShape, List.filter_map]
    rfl
  have hb' : (b'.filter (fun e => normalise e.1 == na)).map
      (fun e => (e.1, e.2.map (fun al => al.1))) =
      (keyShape b').filter (fun s => normalise s.1 == na) := by
    rw [keyShape, List.filter_map]
    rfl
  rw [hb, hb', h]

theorem normInner_isSome_congr {τ τ' : Type} (albums : List (Str × List τ))
    (albums' : List (Str × List τ'))
    (h : albums.map (fun al => al.1) = albums'.map (fun al => al.1)) (nal : Str) :
    (lookup nal (normInner albums)).isSome =
      (lookup nal (normInner albums')).isSome := by
  rw [Bool.eq_iff_iff, lookup_normInner_isSome, lookup_normInner_isSome]
  constructor
  · rintro ⟨e, he, hn⟩
    have : e.1 ∈ albums'.map (fun al => al.1) := by
      rw [← h]
      exact List.mem_map.mpr ⟨e, he, rfl⟩
    obtain ⟨e', he', heq⟩ := List.mem_map.mp this
    exact ⟨e', he', by rw [heq, hn]⟩
  · rintro ⟨e, he, hn⟩
    have : e.1 ∈ albums.map (fun al => al.1) := by
      rw [h]
      exact List.mem_map.mpr ⟨e, he, rfl⟩
    obtain ⟨e', he', heq⟩ := List.mem_map.mp this
    exact ⟨e', he', by rw [heq, hn]⟩

theorem hasMatch_keyShape_congr {τ τ' : Type} (b : Index τ) (b' : Index τ')
    (h : keyShape b = keyShape b') (na nal : Str) :
    hasMatch na nal (normalise_index b) = hasMatch na nal (normalise_index b') := by
  unfold hasMatch
  rw [lookup_normalise_index, lookup_normalise_index]
  have hK := filter_keyShape_congr b b' h na
  cases hlast : (b.filter (fun e => normalise e.1 == na)).getLast? with
  | none =>
      rw [List.getLast?_eq_none_iff] at hlast
      rw [hlast] at hK
      have hb0 : b'.filter (fun e => normalise e.1 == na) = [] := by
        have h0 := hK.symm
        rw [List.map_nil, List.map_eq_nil_iff] at h0
        exact h0
      rw [hb0]
      rfl
  | some e₀ =>
      have hg : ((b.filter (fun e => normalise e.1 == na)).map
          (fun e => (e.1, e.2.map (fun al => al.1)))).getLast? =
          some (e₀.1, e₀.2.map (fun al => al.1)) := by
        rw [List.getLast?_map, hlast, Option.map_some']
      rw [hK] at hg
      rw [List.getLast?_map] at hg
      cases hlast' : (b'.filter (fun e => normalise e.1 == na)).getLast? with
      | none => rw [hlast'] at hg; simp at hg
      | some e₀' =>
          rw [hlast'] at hg
          simp only [Option.map_some', Option.some.injEq] at hg
          exact normInner_isSome_congr e₀.2 e₀'.2 (congrArg Prod.snd hg).symm nal

theorem compAlbums_congr {τ τ' : Type} (nb : NormIndex τ) (nb' : NormIndex τ')
    (artist : Str)
    (hm : ∀ nal, hasMatch (normalise artist) nal nb =
      hasMatch (normalise artist) nal nb')
    (albums : List (Str × List τ)) (albums' : List (Str × List τ'))
    (h : albums.map (fun al => al.1) = albums'.map (fun al => al.1)) :
    compAlbums nb artist albums = compAlbums nb' artist albums' := by
  induction albums generalizing albums' with
  | nil =>
      have : albums' = [] := by
        rw [List.map_nil] at h
        exact (List.map_eq_nil_iff.mp h.symm)
      rw [this]
      rfl
  | cons al rest ih =>
      cases albums' with
      | nil => simp at h
      | cons al' rest' =>
          obtain ⟨album, tr⟩ := al
          obtain ⟨album', tr'⟩ := al'
          simp only [List.map_cons, List.cons.injEq] at h
          obtain ⟨h1, h2⟩ := h
          subst h1
          simp only [compAlbums]
          rw [ih rest' h2, hm]

theorem compGo_congr {τ τ' : Type} (nb : NormIndex τ) (nb' : NormIndex τ')
    (hm : ∀ na nal, hasMatch na nal nb = hasMatch na nal nb')
    (a : Index τ) (a' : Index τ') (h : keyShape a = keyShape a') :
    compGo nb a = compGo nb' a' := by
  induction a generalizing a' with
  | nil =>
      have : a' = [] := by
        rw [keyShape, keyShape, List.map_nil] at h
        exact List.map_eq_nil_iff.mp h.symm
      rw [this]
      rfl
  | cons e rest ih =>
      cases a' with
      | nil => simp [keyShape] at h
      | cons e' rest' =>
          obtain ⟨artist, albums⟩ := e
          obtain ⟨artist', albums'⟩ := e'
          simp only [keyShape, List.map_cons, List.cons.injEq, Prod.mk.injEq] at h
          obtain ⟨⟨h1, h2⟩, h3⟩ := h
          subst h1
          simp only [compGo]
          rw [compAlbums_congr nb nb' artist (fun nal => hm _ nal) albums albums' h2,
            ih rest' h3]

/-- C10: the outputs of `comp` and `compare` depend only on the artist and
album key structure of the catalogs — catalogs agreeing on all artist and
album keys but carrying arbitrary different track records (even of a
different type) produce identical `common`, `a_only` and `b_only` lists. -/
theorem comp_ignores_tracks {τ τ' : Type} (a b : Index τ) (a' b' : Index τ')
    (hA : keyShape a = keyShape a') (hB : keyShape b = keyShape b') :
    comp a b = comp a' b' ∧ Albums.compare a b = Albums.compare a' b' := by
  have h1 : comp a b = comp a' b' :=
    compGo_congr _ _ (fun na nal => hasMatch_keyShape_congr b b' hB na nal) a a' hA
  have h2 : comp b a = comp b' a' :=
    compGo_congr _ _ (fun na nal => hasMatch_keyShape_congr a a' hA na nal) b b' hB
  refine ⟨h1, ?_⟩
  show ((comp b a).1, (comp a b).2, (comp b a).2) =
    ((comp b' a').1, (comp a' b').2, (comp b' a').2)
  rw [h1, h2]

/-- Witness for C10: same key structure, different track lists of
different types, identical comparison output. -/
theorem comp_ignores_tracks_witness :
    comp [([97], [([120], [1, 2])])] [([97], [([120], [3])])] =
      comp [([97], [([120], [true])])] [([97], [([120], ([] : List Bool))])] :=
  (comp_ignores_tracks [([97], [([120], [1, 2])])] [([97], [([120], [3])])]
      [([97], [([120], [true])])] [([97], [([120], ([] : List Bool))])]
      (by decide) (by decide)).1

end Albums
